import Mathlib

/-!
Shallow embedding of `src/mcd_inventory_critical_threshold.py`, a single-file
interactive inventory manager for a burger shop.

Modelling conventions:
* A Python dict (insertion-ordered, unique keys) is modelled as a
  `List (String × α)` together with `dictInsert`, which overwrites the value of
  an existing key in place and appends a fresh key at the end — exactly the
  semantics of `d[k] = v` on a Python dict.
* Python `float` values (box prices, subtotals, GST) are modelled as exact
  rationals `Rat`; Python `int` as `Int`.
* The CSV file is modelled at the row level: a `Row` is one already-parsed data
  line `(name, quantity, price, units_per_box, critical_level)`.  The claims
  under verification all assume well-formed (parseable) rows, matching the
  spec, which declares malformed rows an unhandled fatal gap.
* Interactive `input()` streams are modelled as explicit lists / functions:
  per-item integer prompts as `Nat → Option Int` (`none` = a token `int()`
  rejects, which the code catches as `ValueError`), and the order-processor
  token stream as `List OrderTok`.
* `print` output that a claim talks about is reified as data (alert lines,
  invoice totals); purely cosmetic formatting (column widths, `.title()`
  casing) is not modelled.
-/

namespace McD

/-- One item record of the in-memory table, as built by `load_inventory`:
`{'quantity': .., 'price': .., 'units_per_box': .., 'critical_level': ..,
'per_unit_price': ..}`. -/
structure Item where
  quantity : Int
  price : Rat
  units_per_box : Int
  critical_level : Int
  per_unit_price : Rat
deriving DecidableEq, Repr

/-- One parsed data row of `inventory.csv`: columns
`name, quantity, price, units_per_box, critical_level`. -/
structure Row where
  name : String
  quantity : Int
  price : Rat
  units_per_box : Int
  critical_level : Int
deriving DecidableEq, Repr

/-- The in-memory inventory table: a Python dict keyed by lower-cased item
name, insertion-ordered.  All tables the program builds have pairwise distinct
keys (dict invariant). -/
abbrev Table := List (String × Item)

/-- `d[k] = v` on a Python dict: overwrite the value of the (unique) existing
entry for the key in place, append a fresh key at the end. -/
def dictInsert {α : Type} : List (String × α) → String → α → List (String × α)
  | [], k, v => [(k, v)]
  | p :: d, k, v => if p.1 = k then (k, v) :: d else p :: dictInsert d k v

/-- `d[k]` lookup on a Python dict. -/
def lookup {α : Type} : List (String × α) → String → Option α
  | [], _ => none
  | p :: d, k => if p.1 = k then some p.2 else lookup d k

/-- The keys of the table, in order (`list(inventory.keys())`). -/
def keys {α : Type} (d : List (String × α)) : List String :=
  d.map Prod.fst

/-- Build one `Item` from a parsed row, as the loop body of `load_inventory`
does: copy the four stored fields and derive
`per_unit = price / units  # Calculate price per single item`. -/
def itemOfRow (r : Row) : Item :=
  { quantity := r.quantity
    price := r.price
    units_per_box := r.units_per_box
    critical_level := r.critical_level
    per_unit_price := r.price / (r.units_per_box : Rat) }

/-- The row loop of `load_inventory`: for each row, lower-case the name and
store the item under it (`inventory[name] = {...}`). -/
def loadRows (rows : List Row) : Table :=
  rows.foldl (fun inv r => dictInsert inv r.name.toLower (itemOfRow r)) []

/-- `load_inventory`: `none` models a missing file (`FileNotFoundError` is
caught, the message is printed and the empty table is returned); `some rows`
models a readable file with the given parsed data rows.  Result: the table and
the printed error messages. -/
def load_inventory (file : Option (List Row)) : Table × List String :=
  match file with
  | none => ([], ["inventory.csv not found."])
  | some rows => (loadRows rows, [])

/-- `save_inventory`: write one row per item, in table iteration order,
emitting only `name, quantity, price, units_per_box, critical_level`
(`per_unit_price` is not written). -/
def save_inventory (inv : Table) : List Row :=
  inv.map (fun p =>
    { name := p.1
      quantity := p.2.quantity
      price := p.2.price
      units_per_box := p.2.units_per_box
      critical_level := p.2.critical_level })

-- ### Generic dict lemmas

theorem keys_dictInsert_mem {α : Type} (d : List (String × α)) (k : String)
    (v : α) (h : k ∈ keys d) : keys (dictInsert d k v) = keys d := by
  induction d with
  | nil => simp [keys] at h
  | cons p d ih =>
    by_cases hpk : p.1 = k
    · simp [dictInsert, hpk, keys]
    · have hk : k ∈ keys d := by
        simp only [keys, List.map_cons, List.mem_cons] at h
        exact h.resolve_left (fun hh => hpk hh.symm)
      have hih := ih hk
      simp only [keys] at hih
      simp only [dictInsert, if_neg hpk, keys, List.map_cons, hih]

theorem keys_dictInsert_not_mem {α : Type} (d : List (String × α))
    (k : String) (v : α) (h : k ∉ keys d) :
    keys (dictInsert d k v) = keys d ++ [k] := by
  induction d with
  | nil => simp [dictInsert, keys]
  | cons p d ih =>
    simp only [keys, List.map_cons, List.mem_cons] at h
    push_neg at h
    have hpk : ¬p.1 = k := fun hh => h.1 hh.symm
    have hih := ih (by simpa [keys] using h.2)
    simp only [keys] at hih
    simp only [dictInsert, if_neg hpk, keys, List.map_cons, List.cons_append,
      hih]

theorem lookup_dictInsert_self {α : Type} (d : List (String × α))
    (k : String) (v : α) : lookup (dictInsert d k v) k = some v := by
  induction d with
  | nil => simp [dictInsert, lookup]
  | cons p d ih =>
    by_cases hpk : p.1 = k
    · simp [dictInsert, hpk, lookup]
    · simp [dictInsert, hpk, lookup, ih]

theorem lookup_dictInsert_ne {α : Type} (d : List (String × α))
    (k k' : String) (v : α) (hne : k' ≠ k) :
    lookup (dictInsert d k v) k' = lookup d k' := by
  have hkk : ¬k = k' := fun h => hne h.symm
  induction d with
  | nil => simp [dictInsert, lookup, hkk]
  | cons p d ih =>
    by_cases hpk : p.1 = k
    · have hpk' : ¬p.1 = k' := fun h => hne (hpk ▸ h).symm
      simp only [dictInsert, if_pos hpk, lookup]
      rw [if_neg hkk, if_neg hpk']
    · simp only [dictInsert, if_neg hpk, lookup]
      by_cases hpk' : p.1 = k'
      · rw [if_pos hpk', if_pos hpk']
      · rw [if_neg hpk', if_neg hpk']
        exact ih

theorem mem_dictInsert {α : Type} (d : List (String × α)) (k : String)
    (v : α) (p : String × α) (h : p ∈ dictInsert d k v) :
    p ∈ d ∨ p = (k, v) := by
  induction d with
  | nil => simp [dictInsert] at h; simp [h]
  | cons q d ih =>
    by_cases hqk : q.1 = k
    · simp only [dictInsert, if_pos hqk, List.mem_cons] at h
      rcases h with h | h
      · right; exact h
      · left; simp [h]
    · simp only [dictInsert, if_neg hqk, List.mem_cons] at h
      rcases h with h | h
      · left; simp [h]
      · rcases ih h with h' | h'
        · left; simp [h']
        · right; exact h'

theorem keys_nodup_dictInsert {α : Type} (d : List (String × α)) (k : String)
    (v : α) (h : (keys d).Nodup) : (keys (dictInsert d k v)).Nodup := by
  by_cases hk : k ∈ keys d
  · rw [keys_dictInsert_mem d k v hk]; exact h
  · rw [keys_dictInsert_not_mem d k v hk]
    simp only [List.nodup_append, List.nodup_cons, List.nodup_nil]
    exact ⟨h, by simp, by simpa [List.disjoint_singleton] using hk⟩

-- ### Lower-casing is idempotent (needed for reload of a saved file)

theorem char_toNat_ofNat_valid (n : Nat) (h : n.isValidChar) :
    (Char.ofNat n).toNat = n := by
  simp only [Char.ofNat, dif_pos h, Char.ofNatAux, Char.toNat, UInt32.toNat]
  simp

theorem char_toLower_idem (c : Char) : c.toLower.toLower = c.toLower := by
  unfold Char.toLower
  by_cases h : c.toNat ≥ 65 ∧ c.toNat ≤ 90
  · rw [if_pos h]
    have hv : (c.toNat + 32).isValidChar := Or.inl (by omega)
    have ht : (Char.ofNat (c.toNat + 32)).toNat = c.toNat + 32 :=
      char_toNat_ofNat_valid _ hv
    rw [if_neg (by rw [ht]; omega)]
  · rw [if_neg h, if_neg h]

theorem string_toLower_idem (s : String) : s.toLower.toLower = s.toLower := by
  simp only [String.toLower, String.map_eq, List.map_map]
  congr 1
  apply List.map_congr_left
  intro c _
  exact char_toLower_idem c

-- ### Invariants of the loaded table

/-- Every entry of a loaded table comes from some input row: its key is that
row's lower-cased name and its value that row's parsed item. -/
theorem mem_loadRows (rows : List Row) :
    ∀ p ∈ loadRows rows, ∃ r ∈ rows, p = (r.name.toLower, itemOfRow r) := by
  suffices h : ∀ (acc : Table) (p : String × Item),
      p ∈ rows.foldl (fun inv r => dictInsert inv r.name.toLower (itemOfRow r)) acc →
      p ∈ acc ∨ ∃ r ∈ rows, p = (r.name.toLower, itemOfRow r) by
    intro p hp
    rcases h [] p hp with h' | h'
    · simp at h'
    · exact h'
  induction rows with
  | nil => intro acc p hp; exact Or.inl hp
  | cons r rows ih =>
    intro acc p hp
    simp only [List.foldl_cons] at hp
    rcases ih _ p hp with h' | h'
    · rcases mem_dictInsert _ _ _ _ h' with h'' | h''
      · exact Or.inl h''
      · exact Or.inr ⟨r, by simp, h''⟩
    · obtain ⟨r', hr', hpr⟩ := h'
      exact Or.inr ⟨r', by simp [hr'], hpr⟩

/-- The keys of a loaded table are pairwise distinct (Python dict invariant). -/
theorem keys_nodup_loadRows (rows : List Row) : (keys (loadRows rows)).Nodup := by
  suffices h : ∀ (acc : Table), (keys acc).Nodup →
      (keys (rows.foldl
        (fun inv r => dictInsert inv r.name.toLower (itemOfRow r)) acc)).Nodup by
    exact h [] (by simp [keys])
  induction rows with
  | nil => intro acc hacc; exact hacc
  | cons r rows ih =>
    intro acc hacc
    simp only [List.foldl_cons]
    exact ih _ (keys_nodup_dictInsert _ _ _ hacc)

theorem dictInsert_of_not_mem {α : Type} (d : List (String × α)) (k : String)
    (v : α) (h : k ∉ keys d) : dictInsert d k v = d ++ [(k, v)] := by
  induction d with
  | nil => simp [dictInsert]
  | cons p d ih =>
    simp only [keys, List.map_cons, List.mem_cons] at h
    push_neg at h
    have hpk : ¬p.1 = k := fun hh => h.1 hh.symm
    simp only [dictInsert, if_neg hpk, List.cons_append]
    rw [ih (by simpa [keys] using h.2)]

/-- Reloading the rows saved from a canonical table (lower-case fixed keys,
derived field consistent, distinct keys) appends the table to the accumulator
unchanged. -/
theorem foldl_load_save (T : Table) :
    ∀ acc : Table,
    (∀ p ∈ T, p.1.toLower = p.1) →
    (∀ p ∈ T, p.2.per_unit_price = p.2.price / (p.2.units_per_box : Rat)) →
    (keys T).Nodup →
    (∀ k ∈ keys T, k ∉ keys acc) →
    (save_inventory T).foldl
      (fun inv r => dictInsert inv r.name.toLower (itemOfRow r)) acc = acc ++ T := by
  induction T with
  | nil => intro acc _ _ _ _; simp [save_inventory]
  | cons p T ih =>
    intro acc hlower hper hnodup hfresh
    have hsave : save_inventory (p :: T)
        = { name := p.1, quantity := p.2.quantity, price := p.2.price,
            units_per_box := p.2.units_per_box,
            critical_level := p.2.critical_level } :: save_inventory T := rfl
    rw [hsave, List.foldl_cons]
    have hlp : p.1.toLower = p.1 := hlower p (by simp)
    have hip : itemOfRow
        { name := p.1, quantity := p.2.quantity, price := p.2.price,
          units_per_box := p.2.units_per_box,
          critical_level := p.2.critical_level } = p.2 := by
      have hp2 := hper p (by simp)
      obtain ⟨ps, q, pr, u, c, pu⟩ := p
      simp only [itemOfRow, Item.mk.injEq, true_and, and_true]
      exact hp2.symm
    rw [hlp, hip, dictInsert_of_not_mem acc p.1 p.2
      (hfresh p.1 (by simp [keys]))]
    have hT : (save_inventory T).foldl
        (fun inv r => dictInsert inv r.name.toLower (itemOfRow r))
        (acc ++ [(p.1, p.2)]) = (acc ++ [(p.1, p.2)]) ++ T := by
      apply ih
      · intro q hq; exact hlower q (by simp [hq])
      · intro q hq; exact hper q (by simp [hq])
      · simp only [keys, List.map_cons, List.nodup_cons] at hnodup
        exact hnodup.2
      · intro k hk
        have hkT : k ∈ keys (p :: T) := List.mem_cons_of_mem p.1 hk
        have hkacc : k ∉ keys acc := hfresh k hkT
        have hkp : k ≠ p.1 := by
          intro hkp
          simp only [keys, List.map_cons, List.nodup_cons] at hnodup
          exact hnodup.1 (hkp ▸ hk)
        simp only [keys, List.map_append, List.map_cons, List.map_nil,
          List.mem_append, List.mem_cons, List.not_mem_nil, or_false]
        push_neg
        exact ⟨by simpa [keys] using hkacc, hkp⟩
    rw [hT]
    simp

/-- C2 core: the table produced by loading, saving, and reloading equals the
originally loaded table in every field (`per_unit_price` recomputes
identically). -/
theorem loadRows_save_loadRows (rows : List Row) :
    loadRows (save_inventory (loadRows rows)) = loadRows rows := by
  have h := foldl_load_save (loadRows rows) []
    (fun p hp => by
      obtain ⟨r, _, hpr⟩ := mem_loadRows rows p hp
      rw [hpr]
      exact string_toLower_idem r.name)
    (fun p hp => by
      obtain ⟨r, _, hpr⟩ := mem_loadRows rows p hp
      rw [hpr]
      simp [itemOfRow])
    (keys_nodup_loadRows rows)
    (by simp [keys])
  simpa [loadRows] using h

-- ### First-occurrence key order (Python dict key order under re-insertion)

/-- The keys a sequence of dict insertions adds on top of the already-present
keys `seen`: first occurrence order, duplicates and already-seen keys
dropped. -/
def firstOccsFrom : List String → List String → List String
  | _, [] => []
  | seen, x :: xs =>
    if x ∈ seen then firstOccsFrom seen xs
    else x :: firstOccsFrom (x :: seen) xs

theorem firstOccsFrom_congr (l : List String) :
    ∀ s s' : List String, (∀ x, x ∈ s ↔ x ∈ s') →
    firstOccsFrom s l = firstOccsFrom s' l := by
  induction l with
  | nil => intro s s' _; rfl
  | cons x xs ih =>
    intro s s' hss
    by_cases hx : x ∈ s
    · rw [firstOccsFrom, if_pos hx, firstOccsFrom, if_pos ((hss x).mp hx)]
      exact ih s s' hss
    · rw [firstOccsFrom, if_neg hx, firstOccsFrom,
        if_neg (fun h => hx ((hss x).mpr h))]
      rw [ih (x :: s) (x :: s') (fun y => by simp [hss y])]

theorem keys_foldl_loadStep (rows : List Row) :
    ∀ acc : Table,
    keys (rows.foldl
      (fun inv r => dictInsert inv r.name.toLower (itemOfRow r)) acc)
      = keys acc ++ firstOccsFrom (keys acc) (rows.map (fun r => r.name.toLower)) := by
  induction rows with
  | nil => intro acc; simp [firstOccsFrom]
  | cons r rows ih =>
    intro acc
    simp only [List.foldl_cons, List.map_cons]
    by_cases hk : r.name.toLower ∈ keys acc
    · rw [ih, keys_dictInsert_mem _ _ _ hk, firstOccsFrom, if_pos hk]
    · rw [ih, keys_dictInsert_not_mem _ _ _ hk, firstOccsFrom, if_neg hk]
      rw [firstOccsFrom_congr _ (keys acc ++ [r.name.toLower])
        (r.name.toLower :: keys acc) (fun y => by simp [or_comm])]
      simp

/-- Key order of a loaded table: first occurrences of the lower-cased row
names, in row order. -/
theorem keys_loadRows (rows : List Row) :
    keys (loadRows rows)
      = firstOccsFrom [] (rows.map (fun r => r.name.toLower)) := by
  have h := keys_foldl_loadStep rows []
  simpa [loadRows, keys] using h

/-- Last row wins: looking up a key in a loaded table finds the item of the
last input row whose lower-cased name is that key. -/
theorem lookup_foldl_loadStep (rows : List Row) :
    ∀ (acc : Table) (k : String),
    lookup (rows.foldl
      (fun inv r => dictInsert inv r.name.toLower (itemOfRow r)) acc) k
      = match rows.reverse.find? (fun r => r.name.toLower = k) with
        | some r => some (itemOfRow r)
        | none => lookup acc k := by
  induction rows with
  | nil => intro acc k; rfl
  | cons r rows ih =>
    intro acc k
    simp only [List.foldl_cons, List.reverse_cons]
    rw [ih]
    rcases hfind : rows.reverse.find? (fun r => r.name.toLower = k) with _ | r'
    · rw [List.find?_append, hfind]
      simp only [Option.none_orElse]
      by_cases hrk : r.name.toLower = k
      · rw [List.find?_cons_of_pos _ (by simp [hrk])]
        subst hrk
        simp [lookup_dictInsert_self]
      · rw [List.find?_cons_of_neg _ (by simp [hrk])]
        simp [lookup_dictInsert_ne _ _ _ _ (fun h => hrk h.symm)]
    · rw [List.find?_append, hfind]
      simp

theorem lookup_loadRows (rows : List Row) (k : String) :
    lookup (loadRows rows) k
      = (rows.reverse.find? (fun r => r.name.toLower = k)).map itemOfRow := by
  have h := lookup_foldl_loadStep rows [] k
  have hdef : loadRows rows
      = rows.foldl (fun inv r => dictInsert inv r.name.toLower (itemOfRow r))
          [] := rfl
  rw [hdef, h]
  rcases hfind : rows.reverse.find? (fun r => r.name.toLower = k) with _ | r <;>
    simp [hfind, lookup]

theorem firstOccsFrom_length_le (l : List String) :
    ∀ seen, (firstOccsFrom seen l).length ≤ l.length := by
  induction l with
  | nil => intro seen; simp [firstOccsFrom]
  | cons x xs ih =>
    intro seen
    by_cases hx : x ∈ seen
    · rw [firstOccsFrom, if_pos hx]
      exact Nat.le_succ_of_le (ih seen)
    · rw [firstOccsFrom, if_neg hx]
      simpa using ih (x :: seen)

theorem firstOccsFrom_length_lt (l : List String) :
    ∀ seen, ((∃ x ∈ l, x ∈ seen) ∨ ¬l.Nodup) →
    (firstOccsFrom seen l).length < l.length := by
  induction l with
  | nil =>
    intro seen h
    rcases h with ⟨x, hx, _⟩ | h
    · simp at hx
    · simp at h
  | cons x xs ih =>
    intro seen h
    by_cases hx : x ∈ seen
    · rw [firstOccsFrom, if_pos hx]
      have := firstOccsFrom_length_le xs seen
      simpa using Nat.lt_succ_of_le this
    · rw [firstOccsFrom, if_neg hx]
      simp only [List.length_cons, Nat.add_lt_add_iff_right]
      apply ih (x :: seen)
      rcases h with ⟨y, hy, hys⟩ | h
      · rcases List.mem_cons.mp hy with hyx | hyxs
        · exact absurd (hyx ▸ hys) hx
        · exact Or.inl ⟨y, hyxs, List.mem_cons_of_mem x hys⟩
      · rw [List.nodup_cons] at h
        push_neg at h
        by_cases hxxs : x ∈ xs
        · exact Or.inl ⟨x, hxxs, List.mem_cons_self x seen⟩
        · exact Or.inr (h hxxs)

-- ### Claim theorems about load / save

/-- C2: loading a well-formed file (all rows parsed, `units_per_box > 0`),
saving the resulting table, and reloading the saved rows yields a table equal
to the original in every field — `quantity, price, units_per_box,
critical_level` are copied and `per_unit_price` recomputes identically. -/
theorem load_save_load_roundtrip (rows : List Row)
    (hunits : ∀ r ∈ rows, 0 < r.units_per_box) :
    loadRows (save_inventory (loadRows rows)) = loadRows rows :=
  loadRows_save_loadRows rows

theorem load_save_load_roundtrip_witness :
    (∀ r ∈ [Row.mk "Patty" 10 20 50 5, Row.mk "Buns" 4 6 12 5],
        0 < r.units_per_box)
    ∧ loadRows (save_inventory
        (loadRows [Row.mk "Patty" 10 20 50 5, Row.mk "Buns" 4 6 12 5]))
      = loadRows [Row.mk "Patty" 10 20 50 5, Row.mk "Buns" 4 6 12 5] :=
  ⟨by decide, load_save_load_roundtrip _ (by decide)⟩

/-- C7: after a load of well-formed rows (`units_per_box > 0`), every item's
`per_unit_price` equals its box price divided by its units per box; and the
saved file is insensitive to the `per_unit_price` field — overwriting it with
any value yields the identical saved rows, so the derived field is never
persisted. -/
theorem per_unit_price_derived (rows : List Row)
    (hunits : ∀ r ∈ rows, 0 < r.units_per_box) :
    (∀ p ∈ loadRows rows,
        p.2.per_unit_price = p.2.price / (p.2.units_per_box : Rat))
    ∧ ∀ (T : Table) (f : String × Item → Rat),
        save_inventory
          (T.map (fun p => (p.1, { p.2 with per_unit_price := f p })))
          = save_inventory T := by
  constructor
  · intro p hp
    obtain ⟨r, _, hpr⟩ := mem_loadRows rows p hp
    rw [hpr]
    simp [itemOfRow]
  · intro T f
    simp only [save_inventory, List.map_map]
    rfl

theorem per_unit_price_derived_witness :
    (∀ r ∈ [Row.mk "Patty" 10 20 50 5], 0 < r.units_per_box)
    ∧ (∀ p ∈ loadRows [Row.mk "Patty" 10 20 50 5],
        p.2.per_unit_price = p.2.price / (p.2.units_per_box : Rat)) :=
  ⟨by decide, (per_unit_price_derived _ (by decide)).1⟩

/-- C10: with colliding lower-cased names, the loaded table keeps a single
entry per distinct lower-cased name (keys are the first occurrences, without
duplicates), holding the values of the last colliding row; and a file with a
collision does not round-trip — the saved file has strictly fewer rows. -/
theorem loadRows_collision_semantics (rows : List Row) :
    keys (loadRows rows)
      = firstOccsFrom [] (rows.map (fun r => r.name.toLower))
    ∧ (keys (loadRows rows)).Nodup
    ∧ (∀ k, lookup (loadRows rows) k
        = (rows.reverse.find? (fun r => r.name.toLower = k)).map itemOfRow)
    ∧ (¬(rows.map (fun r => r.name.toLower)).Nodup →
        (save_inventory (loadRows rows)).length < rows.length) := by
  refine ⟨keys_loadRows rows, keys_nodup_loadRows rows, lookup_loadRows rows, ?_⟩
  intro hdup
  have hlen : (save_inventory (loadRows rows)).length
      = (keys (loadRows rows)).length := by
    simp [save_inventory, keys]
  rw [hlen, keys_loadRows rows]
  have := firstOccsFrom_length_lt (rows.map (fun r => r.name.toLower)) []
    (Or.inr hdup)
  simpa using this

/-- `String.toLower` rewritten to a kernel-evaluable form
(`String.mapAux` itself is defined by well-founded recursion). -/
theorem toLower_eval (s : String) :
    s.toLower = String.mk (s.data.map Char.toLower) := by
  simp only [String.toLower]
  exact String.map_eq _ _

theorem loadRows_collision_semantics_witness :
    lookup (loadRows [Row.mk "Patty" 10 20 50 5, Row.mk "PATTY" 3 8 10 2])
        "patty" = some (itemOfRow (Row.mk "PATTY" 3 8 10 2))
    ∧ keys (loadRows [Row.mk "Patty" 10 20 50 5, Row.mk "PATTY" 3 8 10 2])
        = ["patty"]
    ∧ (save_inventory
        (loadRows [Row.mk "Patty" 10 20 50 5, Row.mk "PATTY" 3 8 10 2])).length
        < 2 := by
  have hPatty : ("Patty" : String).toLower = "patty" := by
    rw [toLower_eval]; decide
  have hPATTY : ("PATTY" : String).toLower = "patty" := by
    rw [toLower_eval]; decide
  refine ⟨?_, ?_, ?_⟩
  · rw [(loadRows_collision_semantics _).2.2.1 "patty"]
    have hrev : ([Row.mk "Patty" 10 20 50 5,
        Row.mk "PATTY" 3 8 10 2]).reverse
        = [Row.mk "PATTY" 3 8 10 2, Row.mk "Patty" 10 20 50 5] := rfl
    rw [hrev, List.find?_cons_of_pos _ (by simp [hPATTY])]
    rfl
  · rw [(loadRows_collision_semantics _).1]
    simp only [List.map_cons, List.map_nil, hPatty, hPATTY]
    decide
  · refine (loadRows_collision_semantics _).2.2.2 ?_
    simp only [List.map_cons, List.map_nil, hPatty, hPATTY]
    decide

-- ### Low-stock scan (`show_low_stock_alerts`)

/-- One line of low-stock output: a warning
`- Name: Only q boxes left (Critical: c)` (the printed line title-cases the
name; content modelled, formatting not), or the confirmation
`All products are sufficiently stocked.`. -/
inductive AlertLine where
  | warning (name : String) (qty crit : Int) : AlertLine
  | allStocked : AlertLine
deriving DecidableEq, Repr

/-- `show_low_stock_alerts`: walk the table with a `found` flag, printing one
warning per item with `quantity < critical_level`; print the confirmation
after the loop iff the flag was never set. -/
def show_low_stock_alerts (inv : Table) : List AlertLine :=
  let pr := inv.foldl
    (fun (acc : List AlertLine × Bool) p =>
      if p.2.quantity < p.2.critical_level then
        (acc.1 ++ [AlertLine.warning p.1 p.2.quantity p.2.critical_level], true)
      else acc)
    ([], false)
  if pr.2 then pr.1 else pr.1 ++ [AlertLine.allStocked]

/-- The warning lines for a table: one per low item, in table order. -/
def warnsOf (inv : Table) : List AlertLine :=
  (inv.filter (fun p => p.2.quantity < p.2.critical_level)).map
    (fun p => AlertLine.warning p.1 p.2.quantity p.2.critical_level)

theorem warnsOf_cons (p : String × Item) (inv : Table) :
    warnsOf (p :: inv)
      = if p.2.quantity < p.2.critical_level
        then AlertLine.warning p.1 p.2.quantity p.2.critical_level :: warnsOf inv
        else warnsOf inv := by
  simp only [warnsOf, List.filter_cons]
  by_cases hp : p.2.quantity < p.2.critical_level <;> simp [hp]

theorem alerts_foldl (inv : Table) :
    ∀ acc : List AlertLine × Bool,
    inv.foldl
      (fun (acc : List AlertLine × Bool) p =>
        if p.2.quantity < p.2.critical_level then
          (acc.1 ++ [AlertLine.warning p.1 p.2.quantity p.2.critical_level],
            true)
        else acc)
      acc
      = (acc.1 ++ warnsOf inv,
          acc.2 || inv.any (fun p => p.2.quantity < p.2.critical_level)) := by
  induction inv with
  | nil => intro acc; simp [warnsOf]
  | cons p inv ih =>
    intro acc
    by_cases hp : p.2.quantity < p.2.critical_level
    · simp only [List.foldl_cons, if_pos hp, ih, List.any_cons, warnsOf_cons,
        if_true]
      simp [hp]
    · simp only [List.foldl_cons, if_neg hp, ih, List.any_cons, warnsOf_cons]
      simp [hp]

/-- C3: the low-stock scan emits exactly one warning per item with
`quantity < critical_level`, in table order, and emits the confirmation line
iff no item is low. -/
theorem low_stock_scan_exact (inv : Table) :
    show_low_stock_alerts inv
      = (if (inv.filter (fun p => p.2.quantity < p.2.critical_level)).isEmpty
          then [AlertLine.allStocked] else warnsOf inv)
    ∧ (AlertLine.allStocked ∈ show_low_stock_alerts inv ↔
        ∀ p ∈ inv, ¬(p.2.quantity < p.2.critical_level)) := by
  have hshow : show_low_stock_alerts inv
      = if inv.any (fun p => p.2.quantity < p.2.critical_level)
        then warnsOf inv else warnsOf inv ++ [AlertLine.allStocked] := by
    rw [show_low_stock_alerts, alerts_foldl inv ([], false)]
    simp only [List.nil_append, Bool.false_or]
  by_cases hfil : inv.filter (fun p => p.2.quantity < p.2.critical_level) = []
  · have hnone : ∀ p ∈ inv, ¬(p.2.quantity < p.2.critical_level) := by
      intro p hp hlt
      have : p ∈ inv.filter (fun p => p.2.quantity < p.2.critical_level) :=
        List.mem_filter.mpr ⟨hp, by simpa using hlt⟩
      rw [hfil] at this
      simp at this
    have hanyf : inv.any (fun p => p.2.quantity < p.2.critical_level)
        = false := by
      rw [List.any_eq_false]
      intro p hp
      simpa using hnone p hp
    have hw : warnsOf inv = [] := by
      rw [warnsOf, hfil]
      rfl
    have hout : show_low_stock_alerts inv = [AlertLine.allStocked] := by
      rw [hshow, hanyf]
      simp [hw]
    constructor
    · rw [hout, hfil]
      rfl
    · rw [hout]
      simp only [List.mem_singleton, true_iff]
      exact fun p hp => hnone p hp
  · obtain ⟨q, hqfil⟩ := List.exists_mem_of_ne_nil _ hfil
    obtain ⟨hq, hqlt⟩ := List.mem_filter.mp hqfil
    have hanyt : inv.any (fun p => p.2.quantity < p.2.critical_level)
        = true := List.any_eq_true.mpr ⟨q, hq, hqlt⟩
    have hempty : (inv.filter
        (fun p => p.2.quantity < p.2.critical_level)).isEmpty = false := by
      rw [Bool.eq_false_iff]
      intro h
      exact hfil (List.isEmpty_iff.mp h)
    have hout : show_low_stock_alerts inv = warnsOf inv := by
      rw [hshow, hanyt]
      rfl
    constructor
    · rw [hout, hempty]
      rfl
    · rw [hout]
      constructor
      · intro hmem
        exact absurd hmem (by simp [warnsOf])
      · intro hall
        exact absurd (hall q hq) (by simpa using hqlt)

-- ### Count Updater (`daily_inventory_entry`)

/-- Effect of one count prompt on one item: a parsed integer replaces the
quantity, a rejected token (`ValueError`) leaves the item unchanged. -/
def updItem (o : Option Int) (it : Item) : Item :=
  match o with
  | some v => { it with quantity := v }
  | none => it

/-- `inventory[name]['quantity'] = v`: overwrite the quantity of the (unique)
entry with the given key, in place. -/
def setQty : Table → String → Int → Table
  | [], _, _ => []
  | p :: d, k, v =>
    if p.1 = k then (p.1, { p.2 with quantity := v }) :: d
    else p :: setQty d k v

/-- The entry loop: iterate over the names of the original table (Python
iterates `inventory.items()`), prompting once per item; a parsed value is
written back by key, a rejected one is reported and skipped. -/
def dailyGo (inputs : Nat → Option Int) : Nat → List String → Table → Table
  | _, [], acc => acc
  | i, n :: ns, acc =>
    dailyGo inputs (i + 1) ns
      (match inputs i with
       | some v => setQty acc n v
       | none => acc)

/-- `daily_inventory_entry`: `inputs i` is the operator's entry for the
`i`-th item (0-based; `none` = non-integer input). -/
def daily_inventory_entry (inv : Table) (inputs : Nat → Option Int) : Table :=
  dailyGo inputs 0 (keys inv) inv

/-- The specified behaviour, item by item: each item keeps its name and gets
`updItem` applied to its own prompt, independent of the others. -/
def dailySpec (inputs : Nat → Option Int) : Nat → Table → Table
  | _, [] => []
  | i, p :: d => (p.1, updItem (inputs i) p.2) :: dailySpec inputs (i + 1) d

theorem take_succ_set (d : Table) :
    ∀ (k : Nat) (x : String × Item), k < d.length →
    (d.set k x).take (k + 1) = d.take k ++ [x] := by
  induction d with
  | nil => intro k x h; simp at h
  | cons p d ih =>
    intro k x h
    match k with
    | 0 => simp
    | k + 1 =>
      simp only [List.set_cons_succ, List.take_succ_cons, List.cons_append]
      rw [ih k x (by simpa using h)]

theorem drop_succ_set (d : Table) :
    ∀ (k : Nat) (x : String × Item),
    (d.set k x).drop (k + 1) = d.drop (k + 1) := by
  induction d with
  | nil => intro k x; simp
  | cons p d ih =>
    intro k x
    match k with
    | 0 => simp
    | k + 1 =>
      simp only [List.set_cons_succ, List.drop_succ_cons]
      exact ih k x

theorem drop_eq_get_cons (d : Table) :
    ∀ (k : Nat) (h : k < d.length),
    d.drop k = d.get ⟨k, h⟩ :: d.drop (k + 1) := by
  induction d with
  | nil => intro k h; simp at h
  | cons p d ih =>
    intro k h
    match k with
    | 0 => simp
    | k + 1 =>
      simp only [List.drop_succ_cons, List.get_cons_succ]
      exact ih k (by simpa using h)

theorem take_succ_get (d : Table) :
    ∀ (k : Nat) (h : k < d.length),
    d.take (k + 1) = d.take k ++ [d.get ⟨k, h⟩] := by
  induction d with
  | nil => intro k h; simp at h
  | cons p d ih =>
    intro k h
    match k with
    | 0 => simp
    | k + 1 =>
      simp only [List.take_succ_cons, List.get_cons_succ, List.cons_append]
      rw [ih k (by simpa using h)]

theorem keys_get (d : Table) (k : Nat) (h : k < d.length) :
    (keys d).get ⟨k, by simpa [keys] using h⟩ = (d.get ⟨k, h⟩).1 := by
  simp [keys]

theorem setQty_eq_set (d : Table) :
    ∀ (k : Nat) (h : k < d.length) (v : Int),
    (keys d).Nodup →
    setQty d (d.get ⟨k, h⟩).1 v
      = d.set k ((d.get ⟨k, h⟩).1, { (d.get ⟨k, h⟩).2 with quantity := v }) := by
  induction d with
  | nil => intro k h; simp at h
  | cons p d ih =>
    intro k h v hnodup
    match k with
    | 0 => simp [setQty]
    | k + 1 =>
      simp only [List.get_cons_succ, List.set_cons_succ]
      have hmem : (d.get ⟨k, by simpa using h⟩).1 ∈ keys d := by
        simp only [keys, List.mem_map]
        exact ⟨d.get ⟨k, by simpa using h⟩,
          List.get_mem d k (by simpa using h), rfl⟩
      have hne : ¬p.1 = (d.get ⟨k, by simpa using h⟩).1 := by
        intro hcontra
        simp only [keys, List.map_cons, List.nodup_cons] at hnodup
        exact hnodup.1 (hcontra ▸ hmem)
      rw [setQty, if_neg hne]
      rw [ih k (by simpa using h) v
        (List.nodup_cons.mp (by simpa [keys] using hnodup)).2]

theorem keys_set_preserved (d : Table) :
    ∀ (k : Nat) (h : k < d.length) (x : String × Item),
    x.1 = (d.get ⟨k, h⟩).1 → keys (d.set k x) = keys d := by
  induction d with
  | nil => intro k h; simp at h
  | cons p d ih =>
    intro k h x hx
    match k with
    | 0 => simp [keys, hx]
    | k + 1 =>
      simp only [List.get_cons_succ] at hx
      simp only [List.set_cons_succ, keys, List.map_cons]
      rw [show (d.set k x).map Prod.fst = keys (d.set k x) from rfl,
        ih k (by simpa using h) x hx]
      rfl

theorem dailyGo_eq_spec (inputs : Nat → Option Int) :
    ∀ (ns : List String) (k : Nat) (acc : Table),
    (keys acc).Nodup → (keys acc).drop k = ns →
    dailyGo inputs k ns acc = acc.take k ++ dailySpec inputs k (acc.drop k) := by
  intro ns
  induction ns with
  | nil =>
    intro k acc _ hdrop
    have hlen : acc.length ≤ k := by
      have := congrArg List.length hdrop
      simp only [List.length_drop, List.length_nil] at this
      have hk : acc.length = (keys acc).length := by simp [keys]
      omega
    rw [dailyGo, List.take_of_length_le hlen, List.drop_eq_nil_of_le hlen]
    simp [dailySpec]
  | cons n ns ih =>
    intro k acc hnodup hdrop
    have hklt : k < acc.length := by
      by_contra hge
      push_neg at hge
      have : (keys acc).drop k = [] :=
        List.drop_eq_nil_of_le (by simpa [keys] using hge)
      rw [this] at hdrop
      exact List.noConfusion hdrop
    have hkkeys : k < (keys acc).length := by simpa [keys] using hklt
    have hd := List.drop_eq_getElem_cons hkkeys
    rw [hd] at hdrop
    have hdrop' := (List.cons.injEq _ _ _ _).mp hdrop
    have hn : n = (acc.get ⟨k, hklt⟩).1 := by
      have hkk : (keys acc)[k] = (acc.get ⟨k, hklt⟩).1 := by
        simpa using keys_get acc k hklt
      rw [← hdrop'.1, hkk]
    have hns : (keys acc).drop (k + 1) = ns := hdrop'.2
    rw [dailyGo]
    rcases hin : inputs k with _ | v
    · -- invalid input: item skipped, loop continues
      simp only [hin]
      rw [ih (k + 1) acc hnodup hns]
      rw [drop_eq_get_cons acc k hklt]
      simp only [dailySpec, hin, updItem]
      rw [take_succ_get acc k hklt, List.append_assoc, List.singleton_append]
    · -- valid input: quantity overwritten in place
      simp only [hin]
      have hset := setQty_eq_set acc k hklt v hnodup
      rw [← hn] at hset
      rw [hset]
      set x : String × Item
        := (n, { (acc.get ⟨k, hklt⟩).2 with quantity := v }) with hx
      have hkeysx : keys (acc.set k x) = keys acc :=
        keys_set_preserved acc k hklt x (by rw [hx]; exact hn)
      rw [ih (k + 1) (acc.set k x) (by rw [hkeysx]; exact hnodup)
        (by rw [hkeysx]; exact hns)]
      rw [take_succ_set acc k x hklt, drop_succ_set acc k x]
      rw [drop_eq_get_cons acc k hklt]
      simp only [dailySpec, hin, updItem]
      rw [List.append_assoc, List.singleton_append]
      simp [hx, hn]

/-- C5: with distinct keys (the dict invariant every loaded table satisfies),
the Count Updater sets each item's quantity to exactly the integer entered for
it, leaves an item with invalid input at its pre-operation value, and always
continues through the whole table. -/
theorem daily_entry_exact (inv : Table) (inputs : Nat → Option Int)
    (hnodup : (keys inv).Nodup) :
    daily_inventory_entry inv inputs = dailySpec inputs 0 inv := by
  rw [daily_inventory_entry, dailyGo_eq_spec inputs (keys inv) 0 inv hnodup
    (by simp)]
  simp

theorem daily_entry_exact_witness :
    (keys [("patty", Item.mk 10 20 50 5 1),
           ("buns", Item.mk 4 6 12 5 2)]).Nodup
    ∧ daily_inventory_entry
        [("patty", Item.mk 10 20 50 5 1),
         ("buns", Item.mk 4 6 12 5 2)]
        (fun i => if i = 0 then some 7 else none)
      = [("patty", Item.mk 7 20 50 5 1),
         ("buns", Item.mk 4 6 12 5 2)] := by
  constructor
  · decide
  · rw [daily_entry_exact _ _ (by decide)]
    rfl

-- ### Order Processor (`place_order`)

/-- GST rate used in the final invoice (`GST_RATE = 0.05`, exact here). -/
def GST_RATE : Rat := 5 / 100

/-- One token of the order-processor input stream, abstracting the string the
operator types: `done` is the sentinel token (after `.strip().lower()`);
`int z` is a token `int()` parses to `z`, whose `isdigit()` test succeeds
exactly when `z` is a plain non-negative numeral; `junk` is any token `int()`
rejects. -/
inductive OrderTok where
  | done : OrderTok
  | int (z : Int) : OrderTok
  | junk : OrderTok
deriving DecidableEq, Repr

/-- `int(input(...))` at the quantity prompt: only an integer token parses;
`done` or junk raise `ValueError` there. -/
def qtyParse : OrderTok → Option Int
  | OrderTok.int z => some z
  | _ => none

/-- One order line `{'qty': .., 'unit_price': .., 'subtotal': ..}`. -/
structure OrderLine where
  qty : Int
  unit_price : Rat
  subtotal : Rat
deriving DecidableEq, Repr

/-- The session order record: a Python dict keyed by item name. -/
abbrev OrderRec := List (String × OrderLine)

/-- `inventory[name]['price']`; the fallback 0 is unreachable in the program
because names are always drawn from the table's own keys (Python would raise
`KeyError` otherwise). -/
def priceOf (inv : Table) (name : String) : Rat :=
  match lookup inv name with
  | some it => it.price
  | none => 0

/-- `inventory[name]['quantity'] += qty`. -/
def incQty : Table → String → Int → Table
  | [], _, _ => []
  | p :: d, k, q =>
    if p.1 = k then (p.1, { p.2 with quantity := p.2.quantity + q }) :: d
    else p :: incQty d k q

/-- The collection loop of `place_order`.  `items` is
`list(inventory.keys())`, computed once before the loop.  Each iteration
consumes the next token as the index choice; a valid index additionally
consumes the following token as the quantity entry.  An exhausted stream ends
the loop (a real session ends it with `done`). -/
def placeOrderLoop (items : List String) :
    List OrderTok → Table → OrderRec → Table × OrderRec
  | [], inv, order => (inv, order)
  | OrderTok.done :: _, inv, order => (inv, order)
  | OrderTok.junk :: rest, inv, order => placeOrderLoop items rest inv order
  | [OrderTok.int _], inv, order => (inv, order)
  | OrderTok.int z :: t :: rest, inv, order =>
    if z < 1 ∨ (items.length : Int) < z then
      -- `not choice.isdigit() or not (1 <= int(choice) <= len(items))`
      placeOrderLoop items (t :: rest) inv order
    else
      match qtyParse t with
      | none => placeOrderLoop items rest inv order
      | some qty =>
        if qty ≤ 0 then placeOrderLoop items rest inv order
        else
          placeOrderLoop items rest
            (incQty inv (items.getD (z - 1).toNat "") qty)
            (dictInsert order (items.getD (z - 1).toNat "")
              { qty := qty,
                unit_price := priceOf inv (items.getD (z - 1).toNat ""),
                subtotal := priceOf inv (items.getD (z - 1).toNat "") * qty })

/-- The printed order summary: `total`, `gst = total * GST_RATE`,
`grand_total = total + gst`. -/
structure Invoice where
  total : Rat
  gst : Rat
  grand_total : Rat
deriving DecidableEq, Repr

def mkInvoice (order : OrderRec) : Invoice :=
  let total := (order.map (fun p => p.2.subtotal)).sum
  { total := total, gst := total * GST_RATE,
    grand_total := total + total * GST_RATE }

/-- `place_order`: run the collection loop from an empty order record, then
print the summary iff at least one line was recorded. -/
def place_order (inv : Table) (toks : List OrderTok) :
    Table × OrderRec × Option Invoice :=
  let res := placeOrderLoop (keys inv) toks inv []
  (res.1, res.2, if res.2.isEmpty then none else some (mkInvoice res.2))

theorem keys_incQty (d : Table) (k : String) (q : Int) :
    keys (incQty d k q) = keys d := by
  induction d with
  | nil => rfl
  | cons p d ih =>
    by_cases hpk : p.1 = k
    · simp [incQty, hpk, keys]
    · simp only [incQty, if_neg hpk, keys, List.map_cons]
      simp only [keys] at ih
      rw [ih]

theorem lookup_incQty_self (d : Table) (k : String) (q : Int) :
    ∀ it, lookup d k = some it →
    lookup (incQty d k q) k = some { it with quantity := it.quantity + q } := by
  induction d with
  | nil => intro it h; simp [lookup] at h
  | cons p d ih =>
    intro it h
    by_cases hpk : p.1 = k
    · rw [lookup, if_pos hpk] at h
      rw [Option.some_inj] at h
      subst h
      rw [incQty, if_pos hpk]
      simp [lookup, hpk]
    · rw [lookup, if_neg hpk] at h
      rw [incQty, if_neg hpk, lookup, if_neg hpk]
      exact ih it h

theorem lookup_incQty_ne (d : Table) (k k' : String) (q : Int)
    (hne : k' ≠ k) : lookup (incQty d k q) k' = lookup d k' := by
  induction d with
  | nil => rfl
  | cons p d ih =>
    by_cases hpk : p.1 = k
    · rw [incQty, if_pos hpk, lookup, lookup]
      rw [if_neg (by rw [hpk]; exact fun h => hne h.symm),
        if_neg (by rw [hpk]; exact fun h => hne h.symm)]
    · rw [incQty, if_neg hpk, lookup, lookup]
      by_cases hpk' : p.1 = k'
      · rw [if_pos hpk', if_pos hpk']
      · rw [if_neg hpk', if_neg hpk']
        exact ih

theorem priceOf_incQty (d : Table) (k n : String) (q : Int) :
    priceOf (incQty d k q) n = priceOf d n := by
  by_cases hnk : n = k
  · subst hnk
    rcases hl : lookup d n with _ | it
    · rw [priceOf, priceOf, hl]
      have : lookup (incQty d n q) n = none := by
        induction d with
        | nil => rfl
        | cons p d ih =>
          by_cases hpn : p.1 = n
          · rw [lookup, if_pos hpn] at hl
            exact absurd hl (by simp)
          · rw [lookup, if_neg hpn] at hl
            rw [incQty, if_neg hpn, lookup, if_neg hpn]
            exact ih hl
      rw [this]
    · rw [priceOf, priceOf, hl, lookup_incQty_self d n q it hl]
  · rw [priceOf, priceOf, lookup_incQty_ne d k n q hnk]

theorem lookup_of_mem_keys (d : Table) (k : String) (h : k ∈ keys d) :
    ∃ it, lookup d k = some it := by
  induction d with
  | nil => simp [keys] at h
  | cons p d ih =>
    by_cases hpk : p.1 = k
    · exact ⟨p.2, by rw [lookup, if_pos hpk]⟩
    · have : k ∈ keys d := by
        simp only [keys, List.map_cons, List.mem_cons] at h
        exact h.resolve_left (fun hh => hpk hh.symm)
      obtain ⟨it, hit⟩ := ih this
      exact ⟨it, by rw [lookup, if_neg hpk]; exact hit⟩

/-- One valid pick: index in range, quantity token a positive integer.  The
loop records/overwrites the order line at the current box price, increments
the item's live quantity, and continues with the remaining tokens. -/
theorem placeOrderLoop_valid_step (items : List String) (inv : Table)
    (order : OrderRec) (rest : List OrderTok) (z q : Int)
    (hz1 : 1 ≤ z) (hz2 : z ≤ (items.length : Int)) (hq : 0 < q) :
    placeOrderLoop items (OrderTok.int z :: OrderTok.int q :: rest) inv order
      = placeOrderLoop items rest
          (incQty inv (items.getD (z - 1).toNat "") q)
          (dictInsert order (items.getD (z - 1).toNat "")
            { qty := q,
              unit_price := priceOf inv (items.getD (z - 1).toNat ""),
              subtotal := priceOf inv (items.getD (z - 1).toNat "") * q }) := by
  rw [placeOrderLoop]
  rw [if_neg (by push_neg; omega)]
  simp only [qtyParse]
  rw [if_neg (by omega)]

/-- C1: a valid pick of item `z` (1-based) with positive quantity `q` records
the invoice line `{qty := q, unit_price := P, subtotal := P * q}` for the
item's current box price `P`, increments that item's live quantity by exactly
`q`, and whenever at least one line was recorded the printed grand total is
the sum of the line subtotals times `105/100` (subtotal plus 5% GST). -/
theorem order_pick_effects (inv : Table) (order : OrderRec)
    (rest : List OrderTok) (z q : Int) (name : String) (P : Rat)
    (hz1 : 1 ≤ z) (hz2 : z ≤ ((keys inv).length : Int)) (hq : 0 < q)
    (hname : name = (keys inv).getD (z - 1).toNat "")
    (hP : P = priceOf inv name) :
    placeOrderLoop (keys inv) (OrderTok.int z :: OrderTok.int q :: rest) inv
        order
      = placeOrderLoop (keys inv) rest (incQty inv name q)
          (dictInsert order name { qty := q, unit_price := P, subtotal := P * q })
    ∧ (∀ it, lookup inv name = some it →
        lookup (incQty inv name q) name
          = some { it with quantity := it.quantity + q })
    ∧ lookup (dictInsert order name
        { qty := q, unit_price := P, subtotal := P * q }) name
        = some { qty := q, unit_price := P, subtotal := P * q }
    ∧ (∀ (tb : Table) (tk : List OrderTok),
        (place_order tb tk).2.1 ≠ [] →
        (place_order tb tk).2.2 = some (mkInvoice (place_order tb tk).2.1)
          ∧ (mkInvoice (place_order tb tk).2.1).grand_total
              = ((place_order tb tk).2.1.map (fun p => p.2.subtotal)).sum
                  * (105 / 100)) := by
  subst hname hP
  refine ⟨?_, ?_, ?_, ?_⟩
  · exact placeOrderLoop_valid_step (keys inv) inv order rest z q hz1 hz2 hq
  · intro it hit
    exact lookup_incQty_self inv _ q it hit
  · exact lookup_dictInsert_self order _ _
  · intro tb tk hne
    constructor
    · have : ((placeOrderLoop (keys tb) tk tb []).2).isEmpty = false := by
        rw [List.isEmpty_eq_false]
        exact hne
      simp only [place_order] at hne ⊢
      rw [this]
      rfl
    · simp only [mkInvoice, GST_RATE]
      ring

theorem order_pick_effects_witness :
    (1 : Int) ≤ 1
    ∧ (1 : Int) ≤ ((keys [("patty", Item.mk 10 20 50 5 1)]).length : Int)
    ∧ (0 : Int) < 3
    ∧ lookup (dictInsert ([] : OrderRec) "patty"
        { qty := 3, unit_price := priceOf [("patty", Item.mk 10 20 50 5 1)] "patty",
          subtotal := priceOf [("patty", Item.mk 10 20 50 5 1)] "patty" * 3 })
        "patty"
      = some { qty := 3,
                unit_price := priceOf [("patty", Item.mk 10 20 50 5 1)] "patty",
                subtotal := priceOf [("patty", Item.mk 10 20 50 5 1)] "patty"
                  * 3 } := by
  refine ⟨by decide, by decide, by decide, ?_⟩
  exact (order_pick_effects [("patty", Item.mk 10 20 50 5 1)] [] [] 1 3 "patty"
    (priceOf [("patty", Item.mk 10 20 50 5 1)] "patty")
    (by decide) (by decide) (by decide) (by decide) rfl).2.2.1

/-- C4: picking the same valid item twice in one invocation leaves only the
last pick's line in the order record, while the live quantity keeps both
increments — nothing is reversed. -/
theorem order_repick_double_increments (inv : Table) (z q1 q2 : Int)
    (name : String) (P : Rat)
    (hz1 : 1 ≤ z) (hz2 : z ≤ ((keys inv).length : Int))
    (h1 : 0 < q1) (h2 : 0 < q2)
    (hname : name = (keys inv).getD (z - 1).toNat "")
    (hP : P = priceOf inv name) :
    (place_order inv [OrderTok.int z, OrderTok.int q1, OrderTok.int z,
        OrderTok.int q2, OrderTok.done]).2.1
      = [(name, { qty := q2, unit_price := P, subtotal := P * q2 })]
    ∧ (∀ it, lookup inv name = some it →
        lookup (place_order inv [OrderTok.int z, OrderTok.int q1,
            OrderTok.int z, OrderTok.int q2, OrderTok.done]).1 name
          = some { it with quantity := it.quantity + q1 + q2 }) := by
  subst hname hP
  have hp1 : priceOf (incQty inv ((keys inv).getD (z - 1).toNat "") q1)
      ((keys inv).getD (z - 1).toNat "")
      = priceOf inv ((keys inv).getD (z - 1).toNat "") :=
    priceOf_incQty inv _ _ q1
  have hloop : placeOrderLoop (keys inv)
      [OrderTok.int z, OrderTok.int q1, OrderTok.int z, OrderTok.int q2,
        OrderTok.done] inv []
      = (incQty (incQty inv ((keys inv).getD (z - 1).toNat "") q1)
          ((keys inv).getD (z - 1).toNat "") q2,
        [((keys inv).getD (z - 1).toNat "",
          { qty := q2,
            unit_price := priceOf inv ((keys inv).getD (z - 1).toNat ""),
            subtotal := priceOf inv ((keys inv).getD (z - 1).toNat "")
              * q2 })]) := by
    rw [placeOrderLoop_valid_step _ _ _ _ z q1 hz1 hz2 h1]
    rw [placeOrderLoop_valid_step _ _ _ _ z q2 hz1 hz2 h2]
    rw [hp1]
    simp [placeOrderLoop, dictInsert]
  constructor
  · show (placeOrderLoop (keys inv) _ inv []).2 = _
    rw [hloop]
  · intro it hit
    have hl1 := lookup_incQty_self inv ((keys inv).getD (z - 1).toNat "") q1
      it hit
    have hl2 := lookup_incQty_self
      (incQty inv ((keys inv).getD (z - 1).toNat "") q1)
      ((keys inv).getD (z - 1).toNat "") q2 _ hl1
    show lookup (placeOrderLoop (keys inv) _ inv []).1 _ = _
    rw [hloop]
    rw [hl2]

theorem order_repick_double_increments_witness :
    (place_order [("patty", Item.mk 10 20 50 5 1)]
        [OrderTok.int 1, OrderTok.int 3, OrderTok.int 1, OrderTok.int 2,
          OrderTok.done]).2.1
      = [("patty",
          { qty := 2,
            unit_price := priceOf [("patty", Item.mk 10 20 50 5 1)] "patty",
            subtotal := priceOf [("patty", Item.mk 10 20 50 5 1)] "patty"
              * 2 })]
    ∧ lookup (place_order [("patty", Item.mk 10 20 50 5 1)]
        [OrderTok.int 1, OrderTok.int 3, OrderTok.int 1, OrderTok.int 2,
          OrderTok.done]).1 "patty"
      = some (Item.mk (10 + 3 + 2) 20 50 5 1) := by
  have h := order_repick_double_increments [("patty", Item.mk 10 20 50 5 1)]
    1 3 2 "patty" (priceOf [("patty", Item.mk 10 20 50 5 1)] "patty")
    (by decide) (by decide) (by decide) (by decide) rfl rfl
  refine ⟨h.1, ?_⟩
  have := h.2 (Item.mk 10 20 50 5 1) rfl
  rw [this]

/-- C6: a pick whose quantity token does not parse as an integer or parses to
a non-positive integer is abandoned atomically — the table and the order
record are passed unchanged to the continuation of the loop, which resumes at
the index prompt with the remaining tokens. -/
theorem order_invalid_qty_atomic (inv : Table) (order : OrderRec)
    (rest : List OrderTok) (z : Int) (t : OrderTok)
    (hz1 : 1 ≤ z) (hz2 : z ≤ ((keys inv).length : Int))
    (ht : qtyParse t = none ∨ ∃ q, qtyParse t = some q ∧ q ≤ 0) :
    placeOrderLoop (keys inv) (OrderTok.int z :: t :: rest) inv order
      = placeOrderLoop (keys inv) rest inv order := by
  rw [placeOrderLoop]
  rw [if_neg (by push_neg; omega)]
  rcases ht with ht | ⟨q, ht, hq⟩
  · rw [ht]
  · rw [ht]
    simp only [if_pos hq]

theorem order_invalid_qty_atomic_witness :
    placeOrderLoop (keys [("patty", Item.mk 10 20 50 5 1)])
        [OrderTok.int 1, OrderTok.int 0, OrderTok.done]
        [("patty", Item.mk 10 20 50 5 1)] []
      = placeOrderLoop (keys [("patty", Item.mk 10 20 50 5 1)])
        [OrderTok.done] [("patty", Item.mk 10 20 50 5 1)] [] :=
  order_invalid_qty_atomic [("patty", Item.mk 10 20 50 5 1)] []
    [OrderTok.done] 1 (OrderTok.int 0) (by decide) (by decide)
    (Or.inr ⟨0, rfl, by decide⟩)

-- ### Waste Logger (`waste_entry`)

/-- The waste loop: one prompt per item; a parsed count contributes
`units_wasted * per_unit_price` to the running total, a rejected one is
reported and skipped. -/
def wasteGo (inputs : Nat → Option Int) : Nat → List (String × Item) → Rat → Rat
  | _, [], acc => acc
  | i, p :: d, acc =>
    wasteGo inputs (i + 1) d
      (match inputs i with
       | some u => acc + (u : Rat) * p.2.per_unit_price
       | none => acc)

/-- `waste_entry`: returns the (untouched) table and the printed total waste
cost.  The operation writes nothing to the file: persisting happens only in
`save_inventory`, which only menu option 5 calls. -/
def waste_entry (inv : Table) (inputs : Nat → Option Int) : Table × Rat :=
  (inv, wasteGo inputs 0 inv 0)

/-- Per-item waste cost contributions, summed in table order. -/
def wasteSpec (inputs : Nat → Option Int) : Nat → List (String × Item) → Rat
  | _, [] => 0
  | i, p :: d =>
    (match inputs i with
     | some u => (u : Rat) * p.2.per_unit_price
     | none => 0) + wasteSpec inputs (i + 1) d

theorem wasteGo_eq (inputs : Nat → Option Int) :
    ∀ (d : List (String × Item)) (i : Nat) (acc : Rat),
    wasteGo inputs i d acc = acc + wasteSpec inputs i d := by
  intro d
  induction d with
  | nil => intro i acc; simp [wasteGo, wasteSpec]
  | cons p d ih =>
    intro i acc
    rw [wasteGo, wasteSpec, ih]
    rcases inputs i with _ | u
    · ring
    · ring

/-- C8: the Waste Logger leaves the table exactly as it was (no field of any
item changes, and no save happens — only menu option 5 writes the file), and
only reports the total waste cost, the sum over items of
`units_wasted * per_unit_price` (skipped items contribute nothing). -/
theorem waste_entry_pure_report (inv : Table) (inputs : Nat → Option Int) :
    (waste_entry inv inputs).1 = inv
    ∧ (waste_entry inv inputs).2 = wasteSpec inputs 0 inv
    ∧ (waste_entry [("patty", Item.mk 10 20 50 5 (2 / 5))]
        (fun _ => some 100)).2 = 40 := by
  refine ⟨rfl, ?_, ?_⟩
  · rw [waste_entry]
    rw [wasteGo_eq inputs inv 0 0]
    ring
  · rw [waste_entry]
    show wasteGo _ 0 _ 0 = 40
    rw [wasteGo_eq]
    show (0 : Rat) + ((100 : Rat) * (2 / 5) + 0) = 40
    norm_num

-- ### Menu Controller (`main`)

/-- One main-menu selection, carrying the interactive inputs its operation
consumes: `view` = option 1, `entry` = option 2, `order` = option 3,
`waste` = option 4, `saveExit` = option 5, `invalid` = any other token.
(Options 1–3 also run the low-stock scan first; it prints only.) -/
inductive MenuChoice where
  | view : MenuChoice
  | entry (inputs : Nat → Option Int) : MenuChoice
  | order (toks : List OrderTok) : MenuChoice
  | waste (inputs : Nat → Option Int) : MenuChoice
  | saveExit : MenuChoice
  | invalid : MenuChoice

/-- The menu loop: dispatch on the selection; only option 5 saves the table
and terminates.  Result: the final table and the file contents written (none
if the loop never reached option 5 before the script ran out). -/
def menuLoop : List MenuChoice → Table → Table × Option (List Row)
  | [], inv => (inv, none)
  | MenuChoice.view :: rest, inv => menuLoop rest inv
  | MenuChoice.entry ins :: rest, inv =>
    menuLoop rest (daily_inventory_entry inv ins)
  | MenuChoice.order toks :: rest, inv =>
    menuLoop rest (place_order inv toks).1
  | MenuChoice.waste ins :: rest, inv =>
    menuLoop rest (waste_entry inv ins).1
  | MenuChoice.saveExit :: _, inv => (inv, some (save_inventory inv))
  | MenuChoice.invalid :: rest, inv => menuLoop rest inv

/-- `main`: load the inventory (the file may be missing), show the low-stock
alerts (print only), then run the menu loop. -/
def main (file : Option (List Row)) (script : List MenuChoice) :
    Table × Option (List Row) :=
  menuLoop script (load_inventory file).1

/-- C9: with the persisted file missing, the loader reports the condition and
returns the empty table, and the program proceeds into the menu loop with
that empty table instead of terminating — a full session, including a later
save, still runs. -/
theorem missing_file_not_fatal :
    (load_inventory none).1 = []
    ∧ (load_inventory none).2 = ["inventory.csv not found."]
    ∧ (∀ script, main none script = menuLoop script [])
    ∧ main none [MenuChoice.view, MenuChoice.saveExit] = ([], some []) :=
  ⟨rfl, rfl, fun _ => rfl, rfl⟩

end McD
